import Mathlib

/-!
# Verification of the chunking-and-reassembly pipeline of `parakeet_transcribe.py`

Shallow embedding of the algorithmic core of `Scripts/parakeet_transcribe.py`:

* the Interval Consolidator (`merge_vad_segments`): a merge pass over
  voice-activity intervals followed by a split pass bounding chunk duration;
* the Segment Builder (`finalize_segment`, `build_segments_from_words`):
  regrouping of a flat timestamped word stream into output segments;
* the pure dataflow of the Pipeline Orchestrator (`transcribe_with_vad`),
  with the external transcription engine abstracted as an oracle.

Sample indices are modelled as `Int` (Python integers), and time values in
seconds as `ℚ` (Python floats are modelled exactly by rationals; every
concrete instance below uses values that are exact in binary floating point,
so the model and the float execution agree on them).
-/

attribute [local semireducible] Rat.add Rat.mul Rat.sub Rat.inv Rat.ofScientific

namespace Parakeet

/-- Python `str.strip()`: remove leading and trailing whitespace characters. -/
def pyStrip (s : String) : String :=
  ⟨((s.data.dropWhile Char.isWhitespace).reverse.dropWhile Char.isWhitespace).reverse⟩

/-- A speech interval / chunk in sample-index units, `{'start': ..., 'end': ...}`
in the Python source.  The dictionary key `end` is a Lean keyword, so the field
is called `stop` here. -/
structure Interval where
  start : Int
  stop : Int
deriving DecidableEq, Repr, Inhabited

/-- Python `int(x)` applied to a real-valued expression: truncation toward zero. -/
def pyInt (x : ℚ) : Int :=
  if 0 ≤ x then x.floor else x.ceil

/-- The first pass of `merge_vad_segments` (lines 89-104): walk the segments
keeping an accumulating `current_chunk`; a segment whose gap to the current
chunk's end is `< merge_gap_samples` is absorbed (the chunk's `end` is moved to
the segment's `end`), otherwise the chunk is closed and a new one starts at the
segment.  `cur` is the accumulating chunk, the list argument the remaining
segments. -/
def mergePassGo (merge_gap_samples : Int) (cur : Interval) :
    List Interval → List Interval
  | [] => [cur]
  | seg :: rest =>
    if seg.start - cur.stop < merge_gap_samples then
      mergePassGo merge_gap_samples { cur with stop := seg.stop } rest
    else
      cur :: mergePassGo merge_gap_samples { start := seg.start, stop := seg.stop } rest

/-- The complete first (merge) pass of `merge_vad_segments` on a segment list. -/
def mergePass (speech_segments : List Interval) (merge_gap_samples : Int) :
    List Interval :=
  match speech_segments with
  | [] => []
  | seg :: rest =>
    mergePassGo merge_gap_samples { start := seg.start, stop := seg.stop } rest

/-- The inner accumulation loop of the split pass (lines 132-144): running
sub-chunk `[sub_chunk_start, sub_chunk_end]`; a new sub-chunk is started before
the next segment exactly when `potential_duration > max_chunk_samples` and
`gap >= split_gap_samples`. -/
def splitGo (max_chunk_samples split_gap_samples : Int)
    (sub_chunk_start sub_chunk_end : Int) : List Interval → List Interval
  | [] => [{ start := sub_chunk_start, stop := sub_chunk_end }]
  | seg :: rest =>
    if seg.stop - sub_chunk_start > max_chunk_samples ∧
        seg.start - sub_chunk_end ≥ split_gap_samples then
      { start := sub_chunk_start, stop := sub_chunk_end } ::
        splitGo max_chunk_samples split_gap_samples seg.start seg.stop rest
    else
      splitGo max_chunk_samples split_gap_samples sub_chunk_start seg.stop rest

/-- The per-chunk body of the split pass (lines 110-147): a chunk not exceeding
`max_chunk_samples`, or backed by at most one original segment, is emitted
as is; otherwise it is re-split by accumulating the original segments that lie
inside it. -/
def splitChunk (speech_segments : List Interval)
    (max_chunk_samples split_gap_samples : Int) (chunk : Interval) : List Interval :=
  if chunk.stop - chunk.start ≤ max_chunk_samples then [chunk]
  else
    let segments_in_chunk := speech_segments.filter fun seg =>
      decide (chunk.start ≤ seg.start ∧ seg.stop ≤ chunk.stop)
    if segments_in_chunk.length ≤ 1 then [chunk]
    else
      match segments_in_chunk with
      | [] => [chunk]
      | seg :: rest => splitGo max_chunk_samples split_gap_samples seg.start seg.stop rest

/-- `merge_vad_segments` (lines 68-149): thresholds given in seconds are
converted to whole samples by Python `int(...)` truncation; the merge pass is
followed by the split pass over each merged chunk. -/
def merge_vad_segments (speech_segments : List Interval) (sr : Int)
    (merge_gap max_chunk split_gap : ℚ) : List Interval :=
  if speech_segments.isEmpty then []
  else
    let merge_gap_samples := pyInt (merge_gap * (sr : ℚ))
    let max_chunk_samples := pyInt (max_chunk * (sr : ℚ))
    let split_gap_samples := pyInt (split_gap * (sr : ℚ))
    let merged := mergePass speech_segments merge_gap_samples
    (merged.map (splitChunk speech_segments max_chunk_samples split_gap_samples)).flatten

/-- Script constant `DEFAULT_VAD_MERGE_GAP = 10.0`. -/
def DEFAULT_VAD_MERGE_GAP : ℚ := 10

/-- Script constant `DEFAULT_VAD_MAX_CHUNK = 300.0`. -/
def DEFAULT_VAD_MAX_CHUNK : ℚ := 300

/-- Script constant `DEFAULT_VAD_SPLIT_GAP = 0.5`. -/
def DEFAULT_VAD_SPLIT_GAP : ℚ := 1/2

/-- A word token of the aggregate word list: `{"text": ..., "start": ...,
"end": ..., "confidence": ...}` as assembled in `transcribe_with_vad`
(lines 293-300); `end` is again rendered as `stop`.  Times are global seconds. -/
structure Word where
  text : String
  start : ℚ
  stop : ℚ
  confidence : ℚ
deriving DecidableEq, Repr, Inhabited

/-- A WhisperX-compatible output word `{"word", "start", "end", "score"}`
as produced by `finalize_segment` (lines 156-165). -/
structure OutWord where
  word : String
  start : ℚ
  stop : ℚ
  score : ℚ
deriving DecidableEq, Repr, Inhabited

/-- An output segment `{"start", "end", "text", "words"}` as returned by
`finalize_segment` (lines 166-171). -/
structure Segment where
  start : ℚ
  stop : ℚ
  text : String
  words : List OutWord
deriving DecidableEq, Repr, Inhabited

/-- The per-word conversion inside `finalize_segment`'s list comprehension
(lines 156-165): strip the text, keep the times, expose confidence as score. -/
def toWhisperxWord (w : Word) : OutWord :=
  { word := pyStrip w.text, start := w.start, stop := w.stop, score := w.confidence }

/-- `finalize_segment` (lines 152-171).  The Python function indexes
`words[0]` and `words[-1]` and is only ever called on a non-empty list; the
embedding totalises those two reads with `headD`/`getLastD`, which agree with
the source on every non-empty list. -/
def finalize_segment (words : List Word) : Segment :=
  { start := (words.headD default).start,
    stop := (words.getLastD default).stop,
    text := String.intercalate " " (words.map fun w => pyStrip w.text),
    words := (words.filter fun w => decide (pyStrip w.text ≠ "")).map toWhisperxWord }

/-- Script constant `GAP_THRESHOLD = 0.4`. -/
def GAP_THRESHOLD : ℚ := 2/5

/-- Script constant `MAX_SEGMENT_DURATION = 10.0`. -/
def MAX_SEGMENT_DURATION : ℚ := 10

/-- The scan loop of `build_segments_from_words` (lines 194-213): `prev_word`
is `all_words[i-1]`, `cur` the accumulating `current_segment_words`,
`segment_start_time` the running segment start; a break happens exactly when
`gap > gap_threshold` or `segment_duration > max_duration`. -/
def buildGo (gap_threshold max_duration : ℚ) (prev_word : Word)
    (cur : List Word) (segment_start_time : ℚ) : List Word → List Segment
  | [] => [finalize_segment cur]
  | curr_word :: rest =>
    if curr_word.start - prev_word.stop > gap_threshold ∨
        prev_word.stop - segment_start_time > max_duration then
      finalize_segment cur ::
        buildGo gap_threshold max_duration curr_word [curr_word] curr_word.start rest
    else
      buildGo gap_threshold max_duration curr_word (cur ++ [curr_word])
        segment_start_time rest

/-- `build_segments_from_words` (lines 174-219). -/
def build_segments_from_words (all_words : List Word)
    (gap_threshold : ℚ := GAP_THRESHOLD) (max_duration : ℚ := MAX_SEGMENT_DURATION) :
    List Segment :=
  match all_words with
  | [] => []
  | w :: rest => buildGo gap_threshold max_duration w [w] w.start rest

/-- The Segment Builder's grouping rule transcribed from the specification
(§4.3): scanning left to right, a break is inserted before the next word
exactly when `gap = next.start - previous.end` exceeds `gap_threshold` or
`running_duration = previous.end - segment_start` exceeds `max_duration`.
This produces the raw word groups, before any segment finalisation. -/
def specGroupsGo (gap_threshold max_duration : ℚ) (prev_word : Word)
    (cur : List Word) (segment_start_time : ℚ) : List Word → List (List Word)
  | [] => [cur]
  | curr_word :: rest =>
    if curr_word.start - prev_word.stop > gap_threshold ∨
        prev_word.stop - segment_start_time > max_duration then
      cur :: specGroupsGo gap_threshold max_duration curr_word [curr_word]
        curr_word.start rest
    else
      specGroupsGo gap_threshold max_duration curr_word (cur ++ [curr_word])
        segment_start_time rest

/-- The word groups of the specification's break rule over a full word list. -/
def specGroups (gap_threshold max_duration : ℚ) : List Word → List (List Word)
  | [] => []
  | w :: rest => specGroupsGo gap_threshold max_duration w [w] w.start rest

/-- The time footprint of a word: the pair of its start and end seconds. -/
def timeOf (w : Word) : ℚ × ℚ :=
  (w.start, w.stop)

/-- Python `round` to an integer: nearest integer, ties to even. -/
def roundHalfEven (x : ℚ) : Int :=
  if x - (x.floor : ℚ) < 1/2 then x.floor
  else if 1/2 < x - (x.floor : ℚ) then x.floor + 1
  else if x.floor % 2 = 0 then x.floor else x.floor + 1

/-- Python `round(x, n)`: round to `n` decimal digits, ties to even. -/
def pyRound (x : ℚ) (n : Nat) : ℚ :=
  (roundHalfEven (x * (10 : ℚ) ^ n) : ℚ) / (10 : ℚ) ^ n

/-- One word with chunk-local timestamps as returned by the external
transcription engine for a chunk (the `w` of lines 293-299, with the
`.get` defaults already applied). -/
structure EngineWord where
  word : String
  start : ℚ
  stop : ℚ
  confidence : ℚ
deriving DecidableEq, Repr, Inhabited

/-- The value returned by `transcribe_with_vad`: `{"segments": ..., "language": ...}`. -/
structure TranscribeResult where
  segments : List Segment
  language : String
deriving DecidableEq, Repr, Inhabited

/-- The aggregation step of `transcribe_with_vad` for one chunk
(lines 264-301): add the chunk's start offset in seconds and round, once,
to 3 decimals for times and 4 for confidence. -/
def chunkWords (engine : Interval → List EngineWord) (sr : Int) (chunk : Interval) :
    List Word :=
  (engine chunk).map fun w =>
    { text := w.word,
      start := pyRound (w.start + (chunk.start : ℚ) / (sr : ℚ)) 3,
      stop := pyRound (w.stop + (chunk.start : ℚ) / (sr : ℚ)) 3,
      confidence := pyRound w.confidence 4 }

/-- The pure dataflow of `transcribe_with_vad` (lines 222-320): consolidate the
VAD intervals into chunks; an empty chunk list is immediately returned as a
successful result with no segments; otherwise transcribe each chunk in order
through the external `engine` oracle, aggregate the offset-corrected words, and
build the output segments.  File staging, logging and device-memory hygiene are
side effects with no influence on the returned value and are not modelled. -/
def transcribe_with_vad (engine : Interval → List EngineWord)
    (speech_segments : List Interval) (sr : Int)
    (vad_merge_gap vad_max_chunk vad_split_gap : ℚ) : TranscribeResult :=
  let chunks := merge_vad_segments speech_segments sr vad_merge_gap vad_max_chunk vad_split_gap
  if chunks = [] then { segments := [], language := "en" }
  else
    let all_words := (chunks.map (chunkWords engine sr)).flatten
    { segments := build_segments_from_words all_words GAP_THRESHOLD MAX_SEGMENT_DURATION,
      language := "en" }

/-- The sample span of a (non-empty) run of intervals: from the first
interval's start to the last interval's end. -/
def spanOf (g : List Interval) : Interval :=
  { start := (g.headD default).start, stop := (g.getLastD default).stop }

/-- The grouping underlying the merge pass: walking left to right, the next
interval joins the current run exactly when the gap from the previous
interval's end to its start is strictly less than `merge_gap_samples`;
otherwise a new run starts.  `prev` is the previous interval, `cur` the
current run. -/
def gapRunsGo (merge_gap_samples : Int) (prev : Interval) (cur : List Interval) :
    List Interval → List (List Interval)
  | [] => [cur]
  | seg :: rest =>
    if seg.start - prev.stop < merge_gap_samples then
      gapRunsGo merge_gap_samples seg (cur ++ [seg]) rest
    else
      cur :: gapRunsGo merge_gap_samples seg [seg] rest

/-- The merge pass grouping over a full interval list. -/
def gapRuns (merge_gap_samples : Int) : List Interval → List (List Interval)
  | [] => []
  | seg :: rest => gapRunsGo merge_gap_samples seg [seg] rest

/-- The grouping underlying the split pass, transcribed from the
specification (§4.1, split pass): a sub-chunk is closed before the next
interval exactly when including it would push the running duration past
`max_chunk_samples` and the gap immediately preceding it is at least
`split_gap_samples`. -/
def splitRunsGo (max_chunk_samples split_gap_samples : Int) (cur : List Interval) :
    List Interval → List (List Interval)
  | [] => [cur]
  | seg :: rest =>
    if seg.stop - (cur.headD default).start > max_chunk_samples ∧
        seg.start - (cur.getLastD default).stop ≥ split_gap_samples then
      cur :: splitRunsGo max_chunk_samples split_gap_samples [seg] rest
    else
      splitRunsGo max_chunk_samples split_gap_samples (cur ++ [seg]) rest

/-- The split pass grouping over a full interval list. -/
def splitRuns (max_chunk_samples split_gap_samples : Int) :
    List Interval → List (List Interval)
  | [] => []
  | seg :: rest => splitRunsGo max_chunk_samples split_gap_samples [seg] rest

/-- Ascending, non-overlapping interval lists: every interval ends no later
than any later interval starts. -/
abbrev ascendingIntervals (l : List Interval) : Prop :=
  l.Pairwise fun a b => a.stop ≤ b.start

/-! ## Generic helpers about `headD` and `getLastD` -/

lemma headD_mem {α : Type} [Inhabited α] {l : List α} (h : l ≠ []) :
    l.headD default ∈ l := by
  cases l with
  | nil => exact absurd rfl h
  | cons a t => simp

lemma getLastD_mem {α : Type} [Inhabited α] {l : List α} (h : l ≠ []) :
    l.getLastD default ∈ l := by
  cases l with
  | nil => exact absurd rfl h
  | cons a t =>
    rw [List.getLastD_eq_getLast?, List.getLast?_eq_getLast (a :: t) (by simp)]
    exact List.getLast_mem _

lemma headD_append {α : Type} [Inhabited α] {l : List α} (a : α) (h : l ≠ []) :
    (l ++ [a]).headD default = l.headD default := by
  cases l with
  | nil => exact absurd rfl h
  | cons b t => simp

/-! ## The merge pass computes the spans of the gap runs -/

lemma gapRunsGo_flatten (mg : Int) :
    ∀ (rest : List Interval) (prev : Interval) (cur : List Interval),
      (gapRunsGo mg prev cur rest).flatten = cur ++ rest := by
  intro rest
  induction rest with
  | nil => intro prev cur; simp [gapRunsGo]
  | cons seg rest ih =>
    intro prev cur
    rw [gapRunsGo]
    by_cases h : seg.start - prev.stop < mg
    · rw [if_pos h, ih]
      simp
    · rw [if_neg h]
      simp [ih]

lemma gapRunsGo_ne_nil (mg : Int) :
    ∀ (rest : List Interval) (prev : Interval) (cur : List Interval), cur ≠ [] →
      ∀ g ∈ gapRunsGo mg prev cur rest, g ≠ [] := by
  intro rest
  induction rest with
  | nil =>
    intro prev cur hc g hg
    rw [gapRunsGo] at hg
    simp only [List.mem_singleton] at hg
    subst hg
    exact hc
  | cons seg rest ih =>
    intro prev cur hc g hg
    rw [gapRunsGo] at hg
    by_cases h : seg.start - prev.stop < mg
    · rw [if_pos h] at hg
      exact ih seg (cur ++ [seg]) (by simp) g hg
    · rw [if_neg h] at hg
      rcases List.mem_cons.mp hg with rfl | hg
      · exact hc
      · exact ih seg [seg] (by simp) g hg

lemma mergePassGo_eq_spans (mg : Int) :
    ∀ (rest : List Interval) (prev : Interval) (cur : List Interval), cur ≠ [] →
      (cur.getLastD default).stop = prev.stop →
      mergePassGo mg { start := (cur.headD default).start, stop := prev.stop } rest =
        (gapRunsGo mg prev cur rest).map spanOf := by
  intro rest
  induction rest with
  | nil =>
    intro prev cur hc hlast
    rw [mergePassGo, gapRunsGo, List.map_cons, List.map_nil]
    congr 1
    simp only [spanOf]
    rw [← hlast]
  | cons seg rest ih =>
    intro prev cur hc hlast
    rw [mergePassGo, gapRunsGo]
    by_cases h : seg.start - prev.stop < mg
    · rw [if_pos h, if_pos h]
      have := ih seg (cur ++ [seg]) (by simp) (by simp [List.getLastD_concat])
      rw [headD_append seg hc] at this
      exact this
    · rw [if_neg h, if_neg h, List.map_cons]
      have h2 := ih seg [seg] (by simp) (by simp)
      simp only [List.headD_cons] at h2
      rw [← h2]
      congr 1
      simp only [spanOf]
      rw [← hlast]

lemma mergePass_eq_spans (segs : List Interval) (mg : Int) :
    mergePass segs mg = (gapRuns mg segs).map spanOf := by
  cases segs with
  | nil => rfl
  | cons seg rest =>
    rw [mergePass, gapRuns]
    exact mergePassGo_eq_spans mg rest seg [seg] (by simp) (by simp)

lemma gapRuns_flatten (mg : Int) (segs : List Interval) :
    (gapRuns mg segs).flatten = segs := by
  cases segs with
  | nil => rfl
  | cons seg rest => rw [gapRuns, gapRunsGo_flatten]; rfl

lemma gapRuns_ne_nil (mg : Int) (segs : List Interval) :
    ∀ g ∈ gapRuns mg segs, g ≠ [] := by
  cases segs with
  | nil => simp [gapRuns]
  | cons seg rest => exact gapRunsGo_ne_nil mg rest seg [seg] (by simp)

/-! ## The split pass computes the spans of the split runs -/

lemma splitRunsGo_flatten (mc sg : Int) :
    ∀ (rest : List Interval) (cur : List Interval),
      (splitRunsGo mc sg cur rest).flatten = cur ++ rest := by
  intro rest
  induction rest with
  | nil => intro cur; simp [splitRunsGo]
  | cons seg rest ih =>
    intro cur
    rw [splitRunsGo]
    by_cases h : seg.stop - (cur.headD default).start > mc ∧
        seg.start - (cur.getLastD default).stop ≥ sg
    · rw [if_pos h]
      simp [ih]
    · rw [if_neg h, ih]
      simp

lemma splitRunsGo_ne_nil (mc sg : Int) :
    ∀ (rest : List Interval) (cur : List Interval), cur ≠ [] →
      ∀ g ∈ splitRunsGo mc sg cur rest, g ≠ [] := by
  intro rest
  induction rest with
  | nil =>
    intro cur hc g hg
    rw [splitRunsGo] at hg
    simp only [List.mem_singleton] at hg
    subst hg
    exact hc
  | cons seg rest ih =>
    intro cur hc g hg
    rw [splitRunsGo] at hg
    by_cases h : seg.stop - (cur.headD default).start > mc ∧
        seg.start - (cur.getLastD default).stop ≥ sg
    · rw [if_pos h] at hg
      rcases List.mem_cons.mp hg with rfl | hg
      · exact hc
      · exact ih [seg] (by simp) g hg
    · rw [if_neg h] at hg
      exact ih (cur ++ [seg]) (by simp) g hg

lemma splitGo_eq_spans (mc sg : Int) :
    ∀ (rest : List Interval) (cur : List Interval), cur ≠ [] →
      splitGo mc sg (cur.headD default).start (cur.getLastD default).stop rest =
        (splitRunsGo mc sg cur rest).map spanOf := by
  intro rest
  induction rest with
  | nil =>
    intro cur hc
    rw [splitGo, splitRunsGo, List.map_cons, List.map_nil]
    rfl
  | cons seg rest ih =>
    intro cur hc
    rw [splitGo, splitRunsGo]
    by_cases h : seg.stop - (cur.headD default).start > mc ∧
        seg.start - (cur.getLastD default).stop ≥ sg
    · rw [if_pos h, if_pos h, List.map_cons]
      exact congrArg₂ List.cons rfl (ih [seg] (by simp))
    · rw [if_neg h, if_neg h]
      have h2 := ih (cur ++ [seg]) (by simp)
      rw [headD_append seg hc, List.getLastD_concat] at h2
      exact h2

lemma splitRuns_flatten (mc sg : Int) (l : List Interval) :
    (splitRuns mc sg l).flatten = l := by
  cases l with
  | nil => rfl
  | cons seg rest => rw [splitRuns, splitRunsGo_flatten]; rfl

lemma splitRuns_ne_nil (mc sg : Int) (l : List Interval) :
    ∀ g ∈ splitRuns mc sg l, g ≠ [] := by
  cases l with
  | nil => simp [splitRuns]
  | cons seg rest => exact splitRunsGo_ne_nil mc sg rest [seg] (by simp)

/-- The containment predicate of the split pass's `segments_in_chunk` filter. -/
lemma mem_segments_in_chunk {segs : List Interval} {chunk seg : Interval}
    (h : seg ∈ segs.filter fun s => decide (chunk.start ≤ s.start ∧ s.stop ≤ chunk.stop)) :
    seg ∈ segs ∧ chunk.start ≤ seg.start ∧ seg.stop ≤ chunk.stop := by
  rw [List.mem_filter, decide_eq_true_eq] at h
  exact ⟨h.1, h.2⟩

/-- `splitChunk` in terms of the split runs: a chunk within the duration
bound, or backed by at most one filtered original interval, passes through;
otherwise the spans of the split runs of its constituent intervals are
emitted. -/
lemma splitChunk_eq_runs (segs : List Interval) (mc sg : Int) (chunk : Interval) :
    splitChunk segs mc sg chunk =
      if chunk.stop - chunk.start ≤ mc ∨
          (segs.filter fun s =>
            decide (chunk.start ≤ s.start ∧ s.stop ≤ chunk.stop)).length ≤ 1 then
        [chunk]
      else
        (splitRuns mc sg (segs.filter fun s =>
          decide (chunk.start ≤ s.start ∧ s.stop ≤ chunk.stop))).map spanOf := by
  rw [splitChunk]
  by_cases h1 : chunk.stop - chunk.start ≤ mc
  · rw [if_pos h1, if_pos (Or.inl h1)]
  · rw [if_neg h1]
    by_cases h2 : (segs.filter fun s =>
        decide (chunk.start ≤ s.start ∧ s.stop ≤ chunk.stop)).length ≤ 1
    · rw [if_pos h2, if_pos (Or.inr h2)]
    · rw [if_neg h2, if_neg (by push_neg; exact ⟨lt_of_not_le h1, lt_of_not_le h2⟩)]
      rcases hl : segs.filter fun s =>
          decide (chunk.start ≤ s.start ∧ s.stop ≤ chunk.stop) with _ | ⟨s0, rest⟩
      · rw [hl] at h2; simp at h2
      · rw [hl, splitRuns]
        exact splitGo_eq_spans mc sg rest [s0] (by simp)

/-! ## Ordering properties of run spans -/

lemma spans_pairwise {gs : List (List Interval)}
    (hne : ∀ g ∈ gs, g ≠ [])
    (hp : gs.flatten.Pairwise fun a b => a.stop ≤ b.start) :
    (gs.map spanOf).Pairwise fun a b => a.stop ≤ b.start := by
  rw [List.pairwise_flatten] at hp
  rw [List.pairwise_map]
  refine List.Pairwise.imp_of_mem ?_ hp.2
  intro g h hg hh hr
  show (g.getLastD default).stop ≤ (h.headD default).start
  exact hr _ (getLastD_mem (hne g hg)) _ (headD_mem (hne h hh))

lemma spanOf_valid {g : List Interval} (hne : g ≠ [])
    (hp : g.Pairwise fun a b => a.stop ≤ b.start)
    (hv : ∀ i ∈ g, i.start < i.stop) :
    (spanOf g).start < (spanOf g).stop := by
  cases g with
  | nil => exact absurd rfl hne
  | cons a t =>
    cases t with
    | nil => exact hv a (by simp)
    | cons b t' =>
      have hlast : (b :: t').getLastD default ∈ b :: t' := getLastD_mem (by simp)
      have h1 : a.stop ≤ ((b :: t').getLastD default).start :=
        (List.pairwise_cons.mp hp).1 _ hlast
      have h2 : a.start < a.stop := hv a (by simp)
      have h3 : ((b :: t').getLastD default).start < ((b :: t').getLastD default).stop :=
        hv _ (List.mem_cons_of_mem a hlast)
      calc (spanOf (a :: b :: t')).start = a.start := rfl
        _ < ((b :: t').getLastD default).stop := lt_of_lt_of_le h2 (le_of_lt (lt_of_le_of_lt h1 h3))
        _ = (spanOf (a :: b :: t')).stop := rfl

lemma spanOf_bounds {g : List Interval} (hne : g ≠ []) {lo hi : Int}
    (hb : ∀ i ∈ g, lo ≤ i.start ∧ i.stop ≤ hi) :
    lo ≤ (spanOf g).start ∧ (spanOf g).stop ≤ hi :=
  ⟨(hb _ (headD_mem hne)).1, (hb _ (getLastD_mem hne)).2⟩

/-- Every chunk produced by the split pass for a single chunk: it is a list
of non-overlapping ascending chunks, each with positive extent, each lying
inside the input chunk's sample range, and there is at least one of them. -/
lemma splitChunk_props {segs : List Interval} (mc sg : Int) {chunk : Interval}
    (hasc : segs.Pairwise fun a b => a.stop ≤ b.start)
    (hv : ∀ i ∈ segs, i.start < i.stop)
    (hc : chunk.start < chunk.stop) :
    (splitChunk segs mc sg chunk).Pairwise (fun a b => a.stop ≤ b.start) ∧
    (∀ x ∈ splitChunk segs mc sg chunk, x.start < x.stop) ∧
    (∀ x ∈ splitChunk segs mc sg chunk, chunk.start ≤ x.start ∧ x.stop ≤ chunk.stop) ∧
    splitChunk segs mc sg chunk ≠ [] := by
  rw [splitChunk_eq_runs]
  set l := segs.filter fun s => decide (chunk.start ≤ s.start ∧ s.stop ≤ chunk.stop) with hl
  by_cases h : chunk.stop - chunk.start ≤ mc ∨ l.length ≤ 1
  · rw [if_pos h]
    refine ⟨by simp, ?_, ?_, by simp⟩
    · intro x hx
      rw [List.mem_singleton] at hx
      subst hx
      exact hc
    · intro x hx
      rw [List.mem_singleton] at hx
      subst hx
      exact ⟨le_refl _, le_refl _⟩
  · rw [if_neg h]
    have hlne : l ≠ [] := by
      intro hcon
      rw [hcon] at h
      simp at h
    have hpl : l.Pairwise fun a b => a.stop ≤ b.start := hasc.filter _
    have hvl : ∀ i ∈ l, i.start < i.stop := fun i hi => hv i (List.mem_of_mem_filter hi)
    have hbl : ∀ i ∈ l, chunk.start ≤ i.start ∧ i.stop ≤ chunk.stop := by
      intro i hi
      exact (mem_segments_in_chunk (hl ▸ hi)).2
    have hfl : (splitRuns mc sg l).flatten = l := splitRuns_flatten mc sg l
    have hgne : ∀ g ∈ splitRuns mc sg l, g ≠ [] := splitRuns_ne_nil mc sg l
    have hpw : (splitRuns mc sg l).flatten.Pairwise fun a b => a.stop ≤ b.start := by
      rw [hfl]; exact hpl
    have hwithin := (List.pairwise_flatten.mp hpw).1
    refine ⟨spans_pairwise hgne hpw, ?_, ?_, ?_⟩
    · intro x hx
      rcases List.mem_map.mp hx with ⟨g, hg, rfl⟩
      exact spanOf_valid (hgne g hg) (hwithin g hg)
        (fun i hi => hvl i (hfl ▸ List.mem_flatten_of_mem hg hi))
    · intro x hx
      rcases List.mem_map.mp hx with ⟨g, hg, rfl⟩
      exact spanOf_bounds (hgne g hg)
        (fun i hi => hbl i (hfl ▸ List.mem_flatten_of_mem hg hi))
    · intro hcon
      have hrn : splitRuns mc sg l = [] := List.map_eq_nil_iff.mp hcon
      rw [hrn] at hfl
      exact hlne hfl.symm

/-! ## Invariants of the whole Interval Consolidator -/

lemma mergePass_props {segs : List Interval} (mg : Int)
    (hasc : segs.Pairwise fun a b => a.stop ≤ b.start)
    (hv : ∀ i ∈ segs, i.start < i.stop) :
    (mergePass segs mg).Pairwise (fun a b => a.stop ≤ b.start) ∧
    ∀ c ∈ mergePass segs mg, c.start < c.stop := by
  rw [mergePass_eq_spans]
  have hfl := gapRuns_flatten mg segs
  have hgne := gapRuns_ne_nil mg segs
  have hpw : (gapRuns mg segs).flatten.Pairwise fun a b => a.stop ≤ b.start := by
    rw [hfl]; exact hasc
  have hwithin := (List.pairwise_flatten.mp hpw).1
  refine ⟨spans_pairwise hgne hpw, ?_⟩
  intro x hx
  rcases List.mem_map.mp hx with ⟨g, hg, rfl⟩
  exact spanOf_valid (hgne g hg) (hwithin g hg)
    (fun i hi => hv i (hfl ▸ List.mem_flatten_of_mem hg hi))

lemma merge_vad_segments_eq {segs : List Interval} (sr : Int)
    (merge_gap max_chunk split_gap : ℚ) (h : segs ≠ []) :
    merge_vad_segments segs sr merge_gap max_chunk split_gap =
      ((mergePass segs (pyInt (merge_gap * (sr : ℚ)))).map
        (splitChunk segs (pyInt (max_chunk * (sr : ℚ)))
          (pyInt (split_gap * (sr : ℚ))))).flatten := by
  rw [merge_vad_segments, if_neg (by simpa using h)]

lemma merge_vad_segments_props {segs : List Interval} (sr : Int)
    (merge_gap max_chunk split_gap : ℚ)
    (hasc : segs.Pairwise fun a b => a.stop ≤ b.start)
    (hv : ∀ i ∈ segs, i.start < i.stop) :
    (merge_vad_segments segs sr merge_gap max_chunk split_gap).Pairwise
      (fun a b => a.stop ≤ b.start) ∧
    ∀ c ∈ merge_vad_segments segs sr merge_gap max_chunk split_gap,
      c.start < c.stop := by
  cases segs with
  | nil => exact ⟨List.Pairwise.nil, by intro c hc; simp [merge_vad_segments] at hc⟩
  | cons s0 t0 =>
    rw [merge_vad_segments_eq sr merge_gap max_chunk split_gap (by simp)]
    set mgs := pyInt (merge_gap * (sr : ℚ))
    set mcs := pyInt (max_chunk * (sr : ℚ))
    set sgs := pyInt (split_gap * (sr : ℚ))
    obtain ⟨hmp, hmv⟩ := mergePass_props mgs hasc hv
    have hchunk : ∀ c ∈ mergePass (s0 :: t0) mgs,
        (splitChunk (s0 :: t0) mcs sgs c).Pairwise (fun a b => a.stop ≤ b.start) ∧
        (∀ x ∈ splitChunk (s0 :: t0) mcs sgs c, x.start < x.stop) ∧
        (∀ x ∈ splitChunk (s0 :: t0) mcs sgs c, c.start ≤ x.start ∧ x.stop ≤ c.stop) ∧
        splitChunk (s0 :: t0) mcs sgs c ≠ [] :=
      fun c hc => splitChunk_props mcs sgs hasc hv (hmv c hc)
    constructor
    · rw [List.pairwise_flatten]
      constructor
      · intro b hb
        rcases List.mem_map.mp hb with ⟨c, hc, rfl⟩
        exact (hchunk c hc).1
      · rw [List.pairwise_map]
        refine List.Pairwise.imp_of_mem ?_ hmp
        intro c d hc hd hcd x hx y hy
        calc x.stop ≤ c.stop := ((hchunk c hc).2.2.1 x hx).2
          _ ≤ d.start := hcd
          _ ≤ y.start := ((hchunk d hd).2.2.1 y hy).1
    · intro x hx
      rcases List.mem_flatten.mp hx with ⟨b, hb, hxb⟩
      rcases List.mem_map.mp hb with ⟨c, hc, rfl⟩
      exact (hchunk c hc).2.1 x hxb

lemma mergePass_single (mgs : Int) (a : Interval) : mergePass [a] mgs = [a] := rfl

lemma splitChunk_single (mcs sgs : Int) (a : Interval) :
    splitChunk [a] mcs sgs a = [a] := by
  rw [splitChunk]
  by_cases hd : a.stop - a.start ≤ mcs
  · rw [if_pos hd]
  · rw [if_neg hd]
    simp

lemma merge_vad_segments_single (a : Interval) (sr : Int)
    (merge_gap max_chunk split_gap : ℚ) :
    merge_vad_segments [a] sr merge_gap max_chunk split_gap = [a] := by
  rw [merge_vad_segments_eq sr merge_gap max_chunk split_gap (by simp), mergePass_single]
  simp only [List.map_cons, List.map_nil, List.flatten_cons, List.flatten_nil,
    List.append_nil]
  exact splitChunk_single _ _ a

/-! ## Idempotence of the merge pass -/

lemma mergePassGo_head (mg : Int) :
    ∀ (rest : List Interval) (cur : Interval),
      ∃ c t, mergePassGo mg cur rest = c :: t ∧ c.start = cur.start := by
  intro rest
  induction rest with
  | nil => intro cur; exact ⟨cur, [], rfl, rfl⟩
  | cons seg rest ih =>
    intro cur
    by_cases h : seg.start - cur.stop < mg
    · obtain ⟨c, t, he, hs⟩ := ih { cur with stop := seg.stop }
      exact ⟨c, t, by rw [mergePassGo, if_pos h, he], hs⟩
    · exact ⟨cur, _, by rw [mergePassGo, if_neg h], rfl⟩

lemma mergePassGo_chain (mg : Int) :
    ∀ (rest : List Interval) (cur : Interval),
      (mergePassGo mg cur rest).Chain' fun a b => mg ≤ b.start - a.stop := by
  intro rest
  induction rest with
  | nil => intro cur; rw [mergePassGo]; exact List.chain'_singleton cur
  | cons seg rest ih =>
    intro cur
    rw [mergePassGo]
    by_cases h : seg.start - cur.stop < mg
    · rw [if_pos h]
      exact ih _
    · rw [if_neg h]
      rw [List.chain'_cons']
      refine ⟨?_, ih _⟩
      intro y hy
      obtain ⟨c, t, he, hs⟩ := mergePassGo_head mg rest { start := seg.start, stop := seg.stop }
      rw [he] at hy
      simp only [List.head?_cons, Option.mem_some_iff] at hy
      subst hy
      rw [hs]
      exact not_lt.mp h

lemma mergePassGo_fix (mg : Int) :
    ∀ (l : List Interval) (cur : Interval),
      (∀ y ∈ l.head?, mg ≤ y.start - cur.stop) →
      l.Chain' (fun a b => mg ≤ b.start - a.stop) →
      mergePassGo mg cur l = cur :: l := by
  intro l
  induction l with
  | nil => intro cur _ _; rw [mergePassGo]
  | cons y t ih =>
    intro cur hh hc
    have h1 : mg ≤ y.start - cur.stop := hh y (by simp)
    rw [mergePassGo, if_neg (not_lt.mpr h1)]
    obtain ⟨h2, h3⟩ := List.chain'_cons'.mp hc
    have : ({ start := y.start, stop := y.stop } : Interval) = y := rfl
    rw [this, ih y h2 h3]

lemma mergePass_chain (segs : List Interval) (mg : Int) :
    (mergePass segs mg).Chain' fun a b => mg ≤ b.start - a.stop := by
  cases segs with
  | nil => exact List.chain'_nil
  | cons seg rest => exact mergePassGo_chain mg rest _

lemma mergePass_idem (segs : List Interval) (mg : Int) :
    mergePass (mergePass segs mg) mg = mergePass segs mg := by
  rcases h : mergePass segs mg with _ | ⟨c, t⟩
  · rfl
  · have hch := mergePass_chain segs mg
    rw [h] at hch
    obtain ⟨h1, h2⟩ := List.chain'_cons'.mp hch
    show mergePassGo mg { start := c.start, stop := c.stop } t = c :: t
    have he : ({ start := c.start, stop := c.stop } : Interval) = c := rfl
    rw [he]
    exact mergePassGo_fix mg t c h1 h2

/-! ## The Segment Builder realises the specification's grouping rule -/

lemma buildGo_eq_specGroupsGo (g m : ℚ) :
    ∀ (rest : List Word) (prev : Word) (cur : List Word) (ss : ℚ),
      buildGo g m prev cur ss rest =
        (specGroupsGo g m prev cur ss rest).map finalize_segment := by
  intro rest
  induction rest with
  | nil => intro prev cur ss; rw [buildGo, specGroupsGo, List.map_cons, List.map_nil]
  | cons w t ih =>
    intro prev cur ss
    rw [buildGo, specGroupsGo]
    by_cases h : w.start - prev.stop > g ∨ prev.stop - ss > m
    · rw [if_pos h, if_pos h, List.map_cons, ih]
    · rw [if_neg h, if_neg h, ih]

lemma build_eq_specGroups (ws : List Word) (g m : ℚ) :
    build_segments_from_words ws g m = (specGroups g m ws).map finalize_segment := by
  cases ws with
  | nil => rfl
  | cons w rest =>
    rw [build_segments_from_words, specGroups]
    exact buildGo_eq_specGroupsGo g m rest w [w] w.start

lemma specGroupsGo_flatten (g m : ℚ) :
    ∀ (rest : List Word) (prev : Word) (cur : List Word) (ss : ℚ),
      (specGroupsGo g m prev cur ss rest).flatten = cur ++ rest := by
  intro rest
  induction rest with
  | nil => intro prev cur ss; simp [specGroupsGo]
  | cons w t ih =>
    intro prev cur ss
    rw [specGroupsGo]
    by_cases h : w.start - prev.stop > g ∨ prev.stop - ss > m
    · rw [if_pos h]
      simp [ih]
    · rw [if_neg h, ih]
      simp

lemma specGroups_flatten (g m : ℚ) (ws : List Word) :
    (specGroups g m ws).flatten = ws := by
  cases ws with
  | nil => rfl
  | cons w rest => rw [specGroups, specGroupsGo_flatten]; rfl

lemma specGroupsGo_ne_nil (g m : ℚ) :
    ∀ (rest : List Word) (prev : Word) (cur : List Word) (ss : ℚ), cur ≠ [] →
      ∀ gp ∈ specGroupsGo g m prev cur ss rest, gp ≠ [] := by
  intro rest
  induction rest with
  | nil =>
    intro prev cur ss hc gp hgp
    rw [specGroupsGo] at hgp
    simp only [List.mem_singleton] at hgp
    subst hgp
    exact hc
  | cons w t ih =>
    intro prev cur ss hc gp hgp
    rw [specGroupsGo] at hgp
    by_cases h : w.start - prev.stop > g ∨ prev.stop - ss > m
    · rw [if_pos h] at hgp
      rcases List.mem_cons.mp hgp with rfl | hgp
      · exact hc
      · exact ih w [w] w.start (by simp) gp hgp
    · rw [if_neg h] at hgp
      exact ih w (cur ++ [w]) ss (by simp) gp hgp

lemma specGroups_ne_nil (g m : ℚ) (ws : List Word) :
    ∀ gp ∈ specGroups g m ws, gp ≠ [] := by
  cases ws with
  | nil => simp [specGroups]
  | cons w rest => exact specGroupsGo_ne_nil g m rest w [w] w.start (by simp)

lemma flatten_filterMap_blocks {α β : Type} (L : List (List α)) (p : α → Bool)
    (f : α → β) :
    (L.map fun l => (l.filter p).map f).flatten = (L.flatten.filter p).map f := by
  induction L with
  | nil => rfl
  | cons l L ih => simp [List.filter_append, ih]

/-! ## Break decisions depend only on timestamps -/

lemma specGroupsGo_times (g m : ℚ) :
    ∀ (rest1 rest2 : List Word) (p1 p2 : Word) (c1 c2 : List Word) (ss : ℚ),
      rest1.map timeOf = rest2.map timeOf → p1.stop = p2.stop →
      c1.map timeOf = c2.map timeOf →
      (specGroupsGo g m p1 c1 ss rest1).map (List.map timeOf) =
        (specGroupsGo g m p2 c2 ss rest2).map (List.map timeOf) := by
  intro rest1
  induction rest1 with
  | nil =>
    intro rest2 p1 p2 c1 c2 ss hr hp hc
    have : rest2 = [] := by
      rcases rest2 with _ | ⟨w, t⟩
      · rfl
      · simp at hr
    subst this
    rw [specGroupsGo, specGroupsGo, List.map_cons, List.map_cons, hc]
  | cons w1 t1 ih =>
    intro rest2 p1 p2 c1 c2 ss hr hp hc
    cases rest2 with
    | nil => simp at hr
    | cons w2 t2 =>
      simp only [List.map_cons, List.cons.injEq] at hr
      obtain ⟨hw, ht⟩ := hr
      have hws : w1.start = w2.start := congrArg Prod.fst hw
      have hwe : w1.stop = w2.stop := congrArg Prod.snd hw
      rw [specGroupsGo, specGroupsGo]
      by_cases hbr : w1.start - p1.stop > g ∨ p1.stop - ss > m
      · rw [if_pos hbr, if_pos (by rw [← hws, ← hp]; exact hbr)]
        rw [List.map_cons, List.map_cons, hws]
        exact congrArg₂ List.cons hc
          (ih t2 w1 w2 [w1] [w2] w2.start ht hwe (by simp [hw]))
      · rw [if_neg hbr, if_neg (by rw [← hws, ← hp]; exact hbr)]
        exact ih t2 w1 w2 (c1 ++ [w1]) (c2 ++ [w2]) ss ht hwe (by simp [hc, hw])

lemma specGroups_times {ws1 ws2 : List Word} (g m : ℚ)
    (h : ws1.map timeOf = ws2.map timeOf) :
    (specGroups g m ws1).map (List.map timeOf) =
      (specGroups g m ws2).map (List.map timeOf) := by
  cases ws1 with
  | nil =>
    have : ws2 = [] := by
      rcases ws2 with _ | ⟨w, t⟩
      · rfl
      · simp at h
    subst this
    rfl
  | cons w1 t1 =>
    cases ws2 with
    | nil => simp at h
    | cons w2 t2 =>
      simp only [List.map_cons, List.cons.injEq] at h
      obtain ⟨hw, ht⟩ := h
      rw [specGroups, specGroups]
      have hws : w1.start = w2.start := congrArg Prod.fst hw
      have hwe : w1.stop = w2.stop := congrArg Prod.snd hw
      rw [hws]
      exact specGroupsGo_times g m t1 t2 w1 w2 [w1] [w2] w2.start ht hwe (by simp [hw])

lemma headD_start_eq {g1 g2 : List Word} (h : g1.map timeOf = g2.map timeOf) :
    (g1.headD default).start = (g2.headD default).start := by
  cases g1 with
  | nil =>
    rcases g2 with _ | ⟨b, t2⟩
    · rfl
    · simp at h
  | cons a t1 =>
    cases g2 with
    | nil => simp at h
    | cons b t2 =>
      simp only [List.map_cons, List.cons.injEq] at h
      exact congrArg Prod.fst h.1

lemma getLastD_stop_eq {g1 g2 : List Word} (h : g1.map timeOf = g2.map timeOf) :
    (g1.getLastD default).stop = (g2.getLastD default).stop := by
  have h2 : g1.getLast?.map timeOf = g2.getLast?.map timeOf := by
    rw [← List.getLast?_map, ← List.getLast?_map, h]
  rw [List.getLastD_eq_getLast?, List.getLastD_eq_getLast?]
  cases hg1 : g1.getLast? with
  | none =>
    cases hg2 : g2.getLast? with
    | none => rfl
    | some b => rw [hg1, hg2] at h2; simp at h2
  | some a =>
    cases hg2 : g2.getLast? with
    | none => rw [hg1, hg2] at h2; simp at h2
    | some b =>
      rw [hg1, hg2] at h2
      simp only [Option.map_some', Option.some.injEq] at h2
      simp only [Option.getD_some]
      exact congrArg Prod.snd h2

lemma finalize_bounds_eq {g1 g2 : List Word} (h : g1.map timeOf = g2.map timeOf) :
    ((finalize_segment g1).start, (finalize_segment g1).stop) =
      ((finalize_segment g2).start, (finalize_segment g2).stop) := by
  show ((g1.headD default).start, (g1.getLastD default).stop) =
    ((g2.headD default).start, (g2.getLastD default).stop)
  rw [headD_start_eq h, getLastD_stop_eq h]

lemma groups_bounds_eq :
    ∀ (gs1 gs2 : List (List Word)),
      gs1.map (List.map timeOf) = gs2.map (List.map timeOf) →
      gs1.map (fun gp => ((finalize_segment gp).start, (finalize_segment gp).stop)) =
        gs2.map fun gp => ((finalize_segment gp).start, (finalize_segment gp).stop) := by
  intro gs1
  induction gs1 with
  | nil =>
    intro gs2 h
    rcases gs2 with _ | ⟨g2, t2⟩
    · rfl
    · simp at h
  | cons g1 t1 ih =>
    intro gs2 h
    cases gs2 with
    | nil => simp at h
    | cons g2 t2 =>
      simp only [List.map_cons, List.cons.injEq] at h
      rw [List.map_cons, List.map_cons]
      exact congrArg₂ List.cons (finalize_bounds_eq h.1) (ih t2 h.2)

lemma getLastD_eq_getLast {α : Type} [Inhabited α] {l : List α} (h : l ≠ []) :
    l.getLastD default = l.getLast h := by
  rw [List.getLastD_eq_getLast?, List.getLast?_eq_getLast l h]
  rfl

/-! ## Claim theorems -/

/-- Claim C1: the Segment Builder scans left to right and inserts a break
before the next word exactly when `gap > gap_threshold` or
`running_duration > max_duration` (its output is the finalisation of exactly
the word groups produced by that rule); in particular the three-word concrete
scenario with `gap_threshold = 0.4` yields the two segments `"a b"`
(0.0-0.6) and `"c"` (1.2-1.5). -/
theorem C1_segment_builder_break_rule :
    (∀ (ws : List Word) (g m : ℚ),
      build_segments_from_words ws g m = (specGroups g m ws).map finalize_segment) ∧
    build_segments_from_words
        [⟨"a", 0, 3/10, 1⟩, ⟨"b", 7/20, 3/5, 1⟩, ⟨"c", 6/5, 3/2, 1⟩] (2/5) 10 =
      [{ start := 0, stop := 3/5, text := "a b",
         words := [⟨"a", 0, 3/10, 1⟩, ⟨"b", 7/20, 3/5, 1⟩] },
       { start := 6/5, stop := 3/2, text := "c",
         words := [⟨"c", 6/5, 3/2, 1⟩] }] :=
  ⟨build_eq_specGroups, by decide⟩

/-- Claim C2, counterexample: the merge decision is made on whole samples
after truncating `merge_gap * sr` with `int(...)`, not on seconds.  With
`sr = 16000` and `merge_gap = 1 + 2⁻¹⁵` seconds (an exact binary float), the
gap between the two intervals is exactly 1.0 second, which is strictly less
than `merge_gap`, yet the merge pass does not absorb the second interval:
`int(merge_gap * sr) = 16000` and the 16000-sample gap is not `< 16000`. -/
theorem C2_seconds_rule_counterexample :
    mergePass [⟨0, 16000⟩, ⟨32000, 48000⟩]
        (pyInt ((1 + 1/32768) * ((16000 : Int) : ℚ))) =
      [⟨0, 16000⟩, ⟨32000, 48000⟩] ∧
    merge_vad_segments [⟨0, 16000⟩, ⟨32000, 48000⟩] 16000 (1 + 1/32768) 300 (1/2) =
      [⟨0, 16000⟩, ⟨32000, 48000⟩] ∧
    ((32000 : ℚ) - 16000) / 16000 < 1 + 1/32768 := by
  decide

/-- Claim C2, amended: the merge pass absorbs the next interval exactly when
its gap in samples to the accumulating chunk's end is strictly less than
`int(merge_gap * sr)` (the threshold converted to whole samples by
truncation); equivalently, its output is the list of spans of the maximal
runs of intervals consecutively closer than that sample threshold. -/
theorem C2_merge_pass_rule_amended (segs : List Interval) (sr : Int) (merge_gap : ℚ) :
    mergePass segs (pyInt (merge_gap * (sr : ℚ))) =
      (gapRuns (pyInt (merge_gap * (sr : ℚ))) segs).map spanOf :=
  mergePass_eq_spans segs _

/-- Claim C3: the split pass re-accumulates the original intervals contained
in an over-long merged chunk and closes a sub-chunk exactly when including
the next interval would push the running duration past the `max_chunk`
threshold and the gap immediately preceding that interval is at least the
`split_gap` threshold; a chunk within the bound, or backed by at most one
original interval, is emitted unsplit — in particular a single 400-second
interval with `max_chunk = 300.0` is returned as one 400-second chunk. -/
theorem C3_split_pass_rule :
    (∀ (segs : List Interval) (mc sg : Int) (chunk : Interval),
      splitChunk segs mc sg chunk =
        if chunk.stop - chunk.start ≤ mc ∨
            (segs.filter fun s =>
              decide (chunk.start ≤ s.start ∧ s.stop ≤ chunk.stop)).length ≤ 1 then
          [chunk]
        else
          (splitRuns mc sg (segs.filter fun s =>
            decide (chunk.start ≤ s.start ∧ s.stop ≤ chunk.stop))).map spanOf) ∧
    merge_vad_segments [⟨0, 6400000⟩] 16000 10 300 (1/2) = [⟨0, 6400000⟩] :=
  ⟨splitChunk_eq_runs, by decide⟩

/-- Claim C4, counterexample: a word whose text strips to empty is dropped
from every emitted segment's `words` list, so the segments do not partition
the input word list.  On the single whitespace word the builder emits one
segment whose `words` list is empty: the input word appears in no output
segment. -/
theorem C4_partition_counterexample :
    ((build_segments_from_words [⟨" ", 0, 1, 1⟩] (2/5) 10).map Segment.words).flatten
        = [] ∧
    ([⟨" ", 0, 1, 1⟩] : List Word) ≠ [] := by
  decide

/-- Claim C4, amended: the Segment Builder's word groups partition the input
word list exactly (their concatenation is the input, in order), and the
concatenation of the emitted segments' `words` lists is the input list with
the empty-stripping tokens removed, converted to output form, in order. -/
theorem C4_partition_amended (ws : List Word) (g m : ℚ) :
    (specGroups g m ws).flatten = ws ∧
    ((build_segments_from_words ws g m).map Segment.words).flatten =
      (ws.filter fun w => decide (pyStrip w.text ≠ "")).map toWhisperxWord := by
  refine ⟨specGroups_flatten g m ws, ?_⟩
  rw [build_eq_specGroups, List.map_map]
  exact (flatten_filterMap_blocks (specGroups g m ws) _ toWhisperxWord).trans
    (by rw [specGroups_flatten])

/-- Claim C5: for ascending, non-overlapping, positive-extent input
intervals, the Interval Consolidator's output is non-overlapping and
ascending, every output chunk has `start < end`, empty input yields empty
output, and a single input interval yields that single chunk regardless of
its duration. -/
theorem C5_consolidator_invariants (segs : List Interval) (sr : Int)
    (merge_gap max_chunk split_gap : ℚ)
    (hasc : ascendingIntervals segs)
    (hval : ∀ i ∈ segs, i.start < i.stop) :
    ascendingIntervals (merge_vad_segments segs sr merge_gap max_chunk split_gap) ∧
    (∀ c ∈ merge_vad_segments segs sr merge_gap max_chunk split_gap,
      c.start < c.stop) ∧
    (segs = [] → merge_vad_segments segs sr merge_gap max_chunk split_gap = []) ∧
    (∀ a, segs = [a] →
      merge_vad_segments segs sr merge_gap max_chunk split_gap = [a]) := by
  obtain ⟨h1, h2⟩ := merge_vad_segments_props sr merge_gap max_chunk split_gap hasc hval
  refine ⟨h1, h2, ?_, ?_⟩
  · intro h
    subst h
    rfl
  · intro a h
    subst h
    exact merge_vad_segments_single a sr merge_gap max_chunk split_gap

/-- Witness for C5 at a concrete input. -/
theorem C5_consolidator_invariants_witness :
    ascendingIntervals [(⟨0, 5⟩ : Interval), ⟨100, 200⟩] ∧
    ascendingIntervals (merge_vad_segments [⟨0, 5⟩, ⟨100, 200⟩] 16000 10 300 (1/2)) :=
  ⟨by decide,
    (C5_consolidator_invariants [⟨0, 5⟩, ⟨100, 200⟩] 16000 10 300 (1/2)
      (by decide) (by decide)).1⟩

/-- Claim C6, counterexample: `finalize_segment` joins the stripped texts of
ALL contained words, so a token that strips to empty still contributes an
empty element and an extra space.  On `[" ", "a"]` the produced text is
`" a"`, while the space-join of the non-empty words' texts is `"a"`. -/
theorem C6_text_join_counterexample :
    (finalize_segment [⟨" ", 0, 1, 1⟩, ⟨"a", 1, 2, 1⟩]).text = " a" ∧
    String.intercalate " "
        ((([⟨" ", 0, 1, 1⟩, ⟨"a", 1, 2, 1⟩] : List Word).filter
          fun w => decide (pyStrip w.text ≠ "")).map fun w => pyStrip w.text) = "a" ∧
    (" a" : String) ≠ "a" := by
  decide

/-- Claim C6, amended: a finalized segment's start and end equal the first
and last contained word's bounds (all tokens, including empty ones,
participate in the timing), its `words` list is the contained words with
empty-stripping tokens dropped, and its text is the space-join of ALL
contained words' stripped texts — which agrees with the space-join of only
the non-empty words' texts whenever no contained token strips to empty. -/
theorem C6_finalize_amended (ws : List Word) (h : ws ≠ []) :
    (finalize_segment ws).start = (ws.head h).start ∧
    (finalize_segment ws).stop = (ws.getLast h).stop ∧
    (finalize_segment ws).text =
      String.intercalate " " (ws.map fun w => pyStrip w.text) ∧
    (finalize_segment ws).words =
      (ws.filter fun w => decide (pyStrip w.text ≠ "")).map toWhisperxWord ∧
    ((∀ w ∈ ws, pyStrip w.text ≠ "") →
      (finalize_segment ws).text = String.intercalate " "
        ((ws.filter fun w => decide (pyStrip w.text ≠ "")).map
          fun w => pyStrip w.text)) := by
  refine ⟨?_, ?_, rfl, rfl, ?_⟩
  · show (ws.headD default).start = (ws.head h).start
    cases ws with
    | nil => exact absurd rfl h
    | cons a t => rfl
  · show (ws.getLastD default).stop = (ws.getLast h).stop
    rw [getLastD_eq_getLast h]
  · intro hall
    have hf : ws.filter (fun w => decide (pyStrip w.text ≠ "")) = ws :=
      List.filter_eq_self.mpr fun a ha => decide_eq_true (hall a ha)
    rw [hf]
    rfl

/-- Witness for C6 at a concrete input. -/
theorem C6_finalize_amended_witness :
    ([⟨"a", 0, 1, 1⟩, ⟨"b", 2, 3, 1⟩] : List Word) ≠ [] ∧
    (finalize_segment [⟨"a", 0, 1, 1⟩, ⟨"b", 2, 3, 1⟩]).text =
      String.intercalate " "
        (([⟨"a", 0, 1, 1⟩, ⟨"b", 2, 3, 1⟩] : List Word).map fun w => pyStrip w.text) :=
  ⟨by decide,
    (C6_finalize_amended [⟨"a", 0, 1, 1⟩, ⟨"b", 2, 3, 1⟩] (by decide)).2.2.1⟩

/-- Claim C7: the merge pass is idempotent — re-running it on its own output
with the same merge gap yields that output unchanged (proved for every
interval list, in particular for ascending non-overlapping ones). -/
theorem C7_merge_pass_idempotent (segs : List Interval) (merge_gap_samples : Int) :
    mergePass (mergePass segs merge_gap_samples) merge_gap_samples =
      mergePass segs merge_gap_samples :=
  mergePass_idem segs merge_gap_samples

/-- Claim C8, counterexample: on a single word whose text strips to empty
the builder emits one segment whose `words` list is empty, so not every
emitted segment contains at least one word. -/
theorem C8_nonempty_words_counterexample :
    (build_segments_from_words [⟨" ", 0, 1, 1⟩] (2/5) 10).map Segment.words = [[]] := by
  decide

/-- Claim C8, amended: every emitted segment is built from at least one
input word, and its `words` list is non-empty provided no input token strips
to the empty string. -/
theorem C8_nonempty_words_amended (ws : List Word) (g m : ℚ)
    (h : ∀ w ∈ ws, pyStrip w.text ≠ "") :
    ∀ s ∈ build_segments_from_words ws g m, s.words ≠ [] := by
  intro s hs
  rw [build_eq_specGroups] at hs
  rcases List.mem_map.mp hs with ⟨gp, hgp, rfl⟩
  have hne := specGroups_ne_nil g m ws gp hgp
  show (gp.filter fun w => decide (pyStrip w.text ≠ "")).map toWhisperxWord ≠ []
  have hmem : gp.headD default ∈ gp := headD_mem hne
  have hmemws : gp.headD default ∈ ws := by
    rw [← specGroups_flatten g m ws]
    exact List.mem_flatten_of_mem hgp hmem
  have hfil : gp.headD default ∈ gp.filter fun w => decide (pyStrip w.text ≠ "") :=
    List.mem_filter.mpr ⟨hmem, decide_eq_true (h _ hmemws)⟩
  intro hcon
  rw [List.map_eq_nil_iff] at hcon
  rw [hcon] at hfil
  simp at hfil

/-- Witness for C8 at a concrete input. -/
theorem C8_nonempty_words_amended_witness :
    (([⟨"a", 0, 1, 1⟩] : List Word).all fun w => decide (pyStrip w.text ≠ "")) = true ∧
    ({ start := 0, stop := 1, text := "a",
       words := [⟨"a", 0, 1, 1⟩] } : Segment).words ≠ [] :=
  ⟨by decide,
    C8_nonempty_words_amended [⟨"a", 0, 1, 1⟩] (2/5) 10 (by decide) _ (by decide)⟩

/-- Claim C9: absence of speech is success, not an error — an empty chunk
list makes the pipeline return a successful result with an empty segment
list, and an empty aggregated word list makes the Segment Builder return an
empty segment list. -/
theorem C9_empty_is_success :
    (∀ (engine : Interval → List EngineWord) (segs : List Interval) (sr : Int)
        (merge_gap max_chunk split_gap : ℚ),
      merge_vad_segments segs sr merge_gap max_chunk split_gap = [] →
      transcribe_with_vad engine segs sr merge_gap max_chunk split_gap =
        { segments := [], language := "en" }) ∧
    ∀ (g m : ℚ), build_segments_from_words [] g m = [] := by
  constructor
  · intro engine segs sr merge_gap max_chunk split_gap h
    rw [transcribe_with_vad, if_pos h]
  · intro g m
    rfl

/-- Witness for C9 at a concrete input. -/
theorem C9_empty_is_success_witness :
    merge_vad_segments [] 16000 10 300 (1/2) = [] ∧
    transcribe_with_vad (fun _ => []) [] 16000 10 300 (1/2) =
      { segments := [], language := "en" } :=
  ⟨rfl, C9_empty_is_success.1 (fun _ => []) [] 16000 10 300 (1/2) rfl⟩

/-- Claim C10: the Segment Builder's break decisions depend only on
timestamps, never on word text — two word lists with identical start/end
times produce identical word groupings (same group time footprints, hence
breaks at the same indices, and same group sizes) and segments with
identical start/end times. -/
theorem C10_breaks_depend_only_on_timestamps (ws1 ws2 : List Word) (g m : ℚ)
    (h : ws1.map timeOf = ws2.map timeOf) :
    (specGroups g m ws1).map (List.map timeOf) =
      (specGroups g m ws2).map (List.map timeOf) ∧
    (specGroups g m ws1).map List.length = (specGroups g m ws2).map List.length ∧
    (build_segments_from_words ws1 g m).map (fun s => (s.start, s.stop)) =
      (build_segments_from_words ws2 g m).map fun s => (s.start, s.stop) := by
  have hg := specGroups_times g m h
  have hlen : ∀ (gs : List (List Word)),
      (gs.map (List.map timeOf)).map List.length = gs.map List.length := by
    intro gs
    simp [List.map_map, Function.comp_def]
  refine ⟨hg, ?_, ?_⟩
  · rw [← hlen, ← hlen, hg]
  · rw [build_eq_specGroups, build_eq_specGroups, List.map_map, List.map_map]
    exact groups_bounds_eq _ _ hg

/-- Witness for C10 at a concrete input. -/
theorem C10_breaks_depend_only_on_timestamps_witness :
    ([⟨"a", 0, 1, 1⟩] : List Word).map timeOf =
      ([⟨"b", 0, 1, 1⟩] : List Word).map timeOf ∧
    (build_segments_from_words [⟨"a", 0, 1, 1⟩] (2/5) 10).map
        (fun s => (s.start, s.stop)) =
      (build_segments_from_words [⟨"b", 0, 1, 1⟩] (2/5) 10).map
        fun s => (s.start, s.stop) :=
  ⟨by decide,
    (C10_breaks_depend_only_on_timestamps [⟨"a", 0, 1, 1⟩] [⟨"b", 0, 1, 1⟩]
      (2/5) 10 (by decide)).2.2⟩

end Parakeet
